import Mathlib

/-!
Verification of the word-filter-app backend word-set engine.

Shallow embedding of the Python sources `backend/word_manager.py`,
`backend/word_manager_civo.py`, `backend/main_s3.py` and
`backend/main_optimized.py`.

Words are modelled as `List Char`; Python's `set` of words is modelled as a
`Finset (List Char)`; the persistent store (S3 object / local file) is
modelled as the raw character content of the stored object.  Store I/O
success or failure is an environment input: each operation that flushes
takes a `save_ok : Bool` saying whether the underlying put succeeds, and
additionally returns the list of payloads it handed to the store, so that
"what got flushed" is visible to the theorems.
-/

set_option maxRecDepth 40000

/-- A Python string, as the engine handles it: a list of characters. -/
abbrev Word := List Char

/-- Python `str.strip()`: remove leading and trailing whitespace. -/
def pyStrip (s : List Char) : List Char :=
  ((s.dropWhile Char.isWhitespace).reverse.dropWhile Char.isWhitespace).reverse

/-- Python `str.lower()` (ASCII case folding, as used on these word lists). -/
def pyLower (s : List Char) : List Char := s.map Char.toLower

/-- Python `str.isalpha()`: non-empty and all characters alphabetic. -/
def pyIsAlpha (s : List Char) : Bool := !s.isEmpty && s.all Char.isAlpha

/-- Python `needle in hay` on strings: contiguous-substring test. -/
def pyContains (hay needle : List Char) : Bool :=
  match hay with
  | [] => needle.isEmpty
  | c :: t => needle.isPrefixOf (c :: t) || pyContains t needle

/-- Python `sorted(words)` on a list of strings (lexicographic by character). -/
def sortWords (ws : List Word) : List Word := ws.insertionSort (· ≤ ·)

/-- Splitting stored content at newline characters.  This models Python's
`content.splitlines()` / `content.split('\n')` for the content this engine
itself writes (which never contains `\r` and never ends in a newline); the
loaders immediately drop entries that are blank after `strip()`, which also
cancels the one difference between the two Python functions (a trailing or
leading empty entry). -/
def splitNl : List Char → List (List Char)
  | [] => [[]]
  | c :: cs =>
    if c = '\n' then [] :: splitNl cs
    else
      match splitNl cs with
      | [] => [[c]]
      | l :: ls => (c :: l) :: ls

/-- Python `'\n'.join(lines)`. -/
def joinNl : List (List Char) → List Char
  | [] => []
  | [w] => w
  | w :: ws => w ++ '\n' :: joinNl ws

/-- The sorted listing of a finite set of words: Python's
`sorted(list(words_set))`.  (Python's `list(set)` enumerates in an
unspecified order; `sorted` then makes the result order-independent, which
is what this definition computes.) -/
def finsetSorted (s : Finset Word) : List Word :=
  Quot.liftOn s.val (fun l => l.insertionSort (· ≤ ·)) fun a b h =>
    List.eq_of_perm_of_sorted
      ((List.perm_insertionSort _ a).trans ((h : a.Perm b).trans (List.perm_insertionSort _ b).symm))
      (List.sorted_insertionSort _ a) (List.sorted_insertionSort _ b)

/-- In-memory state of `word_manager.py`'s `WordManager` together with the
content of the S3 object it persists to (`self.words_set` plus the store). -/
structure WordManager where
  words_set : Finset Word
  store : List Char
deriving DecidableEq

namespace WordManager

/-- `WordManager.get_words_list`: `sorted(list(self.words_set))`. -/
def get_words_list (m : WordManager) : List Word := finsetSorted m.words_set

/-- `WordManager.word_exists`: `word.strip().lower() in self.words_set`. -/
def word_exists (m : WordManager) (w : List Char) : Bool :=
  decide (pyLower (pyStrip w) ∈ m.words_set)

/-- `WordManager._save_words_to_s3`: writes `'\n'.join(sorted(words))` to the
store.  `save_ok` says whether the put succeeds (no client / exception
otherwise); on failure the store is untouched and `False` is returned. -/
def save_words_to_s3 (m : WordManager) (save_ok : Bool) (words : List Word) :
    WordManager × Bool :=
  if save_ok then ({ m with store := joinNl (sortWords words) }, true) else (m, false)

/-- `WordManager.load_words_from_s3`, success path (lines 49-54): parse the
stored content, strip/lowercase each line, drop blank lines. -/
def parse_store (content : List Char) : List Word :=
  ((splitNl content).filter fun l => !(pyStrip l).isEmpty).map fun l => pyLower (pyStrip l)

/-- `WordManager.load_words_from_s3`, effect on the in-memory set:
`self.words_set = set(words)`.  Returns the parsed word list as well. -/
def load_words_from_s3 (m : WordManager) : WordManager × List Word :=
  let words := parse_store m.store
  ({ m with words_set := words.toFinset }, words)

/-- `WordManager.add_word` (word_manager.py lines 124-148).  Returns the new
state, the reported success, and the list of payloads flushed to the store. -/
def add_word (m : WordManager) (save_ok : Bool) (w : List Char) :
    WordManager × Bool × List (List Word) :=
  let word := pyLower (pyStrip w)
  if word.isEmpty || !pyIsAlpha word then (m, false, [])
  else if word ∈ m.words_set then (m, true, [])
  else
    let m1 := { m with words_set := insert word m.words_set }
    let words_list := get_words_list m1
    let (m2, success) := save_words_to_s3 m1 save_ok words_list
    if success then (m2, true, [words_list])
    else ({ m2 with words_set := m2.words_set.erase word }, false, [words_list])

/-- The staging loop of `WordManager.add_words` (lines 155-159): normalize
each word, and insert it when it is non-empty, alphabetic and new, counting
the insertions. -/
def stage_adds : List (List Char) → Finset Word → Nat → Finset Word × Nat
  | [], s, n => (s, n)
  | w :: ws, s, n =>
    let word := pyLower (pyStrip w)
    if word ≠ [] ∧ pyIsAlpha word ∧ word ∉ s then stage_adds ws (insert word s) (n + 1)
    else stage_adds ws s n

/-- `WordManager.add_words` (lines 150-172).  Note the faithful rendering of
line 167: the "rollback" rebuilds the set from a comprehension whose guard
`len(self.words_set) <= original_size + added_count` does not depend on the
iterated word. -/
def add_words (m : WordManager) (save_ok : Bool) (ws : List (List Char)) :
    WordManager × (Nat × Nat) × List (List Word) :=
  let original_size := m.words_set.card
  let (staged, added_count) := stage_adds ws m.words_set 0
  let m1 : WordManager := { m with words_set := staged }
  if 0 < added_count then
    let words_list := get_words_list m1
    let (m2, success) := save_words_to_s3 m1 save_ok words_list
    if success then (m2, (added_count, ws.length), [words_list])
    else
      ({ m2 with
          words_set :=
            m2.words_set.filter fun _ => m2.words_set.card ≤ original_size + added_count },
        (0, ws.length), [words_list])
  else (m1, (added_count, ws.length), [])

/-- `WordManager.remove_word` (lines 285-306). -/
def remove_word (m : WordManager) (save_ok : Bool) (w : List Char) :
    WordManager × Bool × List (List Word) :=
  let word := pyLower (pyStrip w)
  if word ∉ m.words_set then (m, true, [])
  else
    let m1 := { m with words_set := m.words_set.erase word }
    let words_list := get_words_list m1
    let (m2, success) := save_words_to_s3 m1 save_ok words_list
    if success then (m2, true, [words_list])
    else ({ m2 with words_set := insert word m2.words_set }, false, [words_list])

/-- The staging loop of `WordManager.remove_words` (lines 313-317). -/
def stage_removes : List (List Char) → Finset Word → Nat → Finset Word × Nat
  | [], s, n => (s, n)
  | w :: ws, s, n =>
    let word := pyLower (pyStrip w)
    if word ∈ s then stage_removes ws (s.erase word) (n + 1)
    else stage_removes ws s n

/-- `WordManager.remove_words` (lines 308-330); on flush failure the set is
restored from the copy taken up front. -/
def remove_words (m : WordManager) (save_ok : Bool) (ws : List (List Char)) :
    WordManager × (Nat × Nat) × List (List Word) :=
  let original_words := m.words_set
  let (staged, removed_count) := stage_removes ws m.words_set 0
  let m1 : WordManager := { m with words_set := staged }
  if 0 < removed_count then
    let words_list := get_words_list m1
    let (m2, success) := save_words_to_s3 m1 save_ok words_list
    if success then (m2, (removed_count, ws.length), [words_list])
    else ({ m2 with words_set := original_words }, (0, ws.length), [words_list])
  else (m1, (removed_count, ws.length), [])

end WordManager

/-- In-memory state of `word_manager_civo.py`'s `CivoWordManager`: the
parallel list and set views. -/
structure CivoWordManager where
  words_list : List Word
  words_set : Finset Word
deriving DecidableEq

namespace CivoWordManager

/-- `CivoWordManager.get_words_list` (lines 268-280), in the already-loaded
case: returns `self.words_list` as is. -/
def get_words_list (c : CivoWordManager) : List Word := c.words_list

/-- `CivoWordManager.word_exists` (line 291): `word.lower() in self.words_set`
(no strip), in the already-loaded case. -/
def word_exists (c : CivoWordManager) (w : List Char) : Bool :=
  decide (pyLower w ∈ c.words_set)

/-- `CivoWordManager.add_word` (lines 293-316).  Note `word.lower().strip()`,
the absence of any `isalpha` check, and the rollback on save failure. -/
def add_word (c : CivoWordManager) (save_ok : Bool) (w : List Char) :
    CivoWordManager × Bool :=
  let word_lower := pyStrip (pyLower w)
  if word_lower ≠ [] ∧ word_lower ∉ c.words_set then
    let c1 : CivoWordManager :=
      ⟨c.words_list ++ [word_lower], insert word_lower c.words_set⟩
    if save_ok then (c1, true)
    else (⟨c1.words_list.erase word_lower, c1.words_set.erase word_lower⟩, false)
  else (c, false)

/-- `CivoWordManager.remove_word` (lines 353-376).  An absent word falls to
`return False`. -/
def remove_word (c : CivoWordManager) (save_ok : Bool) (w : List Char) :
    CivoWordManager × Bool :=
  let word_lower := pyStrip (pyLower w)
  if word_lower ∈ c.words_set then
    let c1 : CivoWordManager :=
      ⟨c.words_list.erase word_lower, c.words_set.erase word_lower⟩
    if save_ok then (c1, true)
    else (⟨c1.words_list ++ [word_lower], insert word_lower c1.words_set⟩, false)
  else (c, false)

end CivoWordManager

/-- Result of an HTTP endpoint: an error status, or a success payload. -/
inductive ApiResult (α : Type) where
  | httpError (code : Nat)
  | ok (value : α)
deriving DecidableEq

/-- `main_s3.py`'s `add_single_word` endpoint (lines 222-259).  The success
payload is the reported `was_new` flag. -/
def add_single_word (m : WordManager) (save_ok : Bool) (w : List Char) :
    WordManager × ApiResult Bool :=
  let word := pyStrip w
  if word.isEmpty then (m, .httpError 400)
  else if !pyIsAlpha word then (m, .httpError 400)
  else if m.word_exists word then (m, .ok false)
  else
    let (m1, success, _) := m.add_word save_ok word
    if success then (m1, .ok true) else (m1, .httpError 500)

/-- The `min_length`/`max_length` branch of `main_s3.py`'s
`get_filtered_words` (lines 125-129), reached when `exact_length` is falsy. -/
def length_filters (min_length max_length : Option Nat) (fw : List Word) : List Word :=
  let fw :=
    match min_length with
    | none => fw
    | some n => if n ≠ 0 then fw.filter (fun w => decide (n ≤ w.length)) else fw
  match max_length with
  | none => fw
  | some n => if n ≠ 0 then fw.filter (fun w => decide (w.length ≤ n)) else fw

/-- `main_s3.py`'s `get_filtered_words` endpoint (lines 91-134): sequential
conditional filters, then truncation to `limit`.  Each `if f:` guard is
Python truthiness: absent (`none`) or empty/zero values skip the filter. -/
def get_filtered_words (words_list : List Word)
    (contains starts_with ends_with : Option (List Char))
    (min_length max_length exact_length : Option Nat) (limit : Nat) : List Word :=
  let fw := words_list
  let fw :=
    match contains with
    | none => fw
    | some c => if c.isEmpty then fw else fw.filter fun w => pyContains w (pyLower c)
  let fw :=
    match starts_with with
    | none => fw
    | some s => if s.isEmpty then fw else fw.filter fun w => (pyLower s).isPrefixOf w
  let fw :=
    match ends_with with
    | none => fw
    | some e => if e.isEmpty then fw else fw.filter fun w => (pyLower e).isSuffixOf w
  let fw :=
    match exact_length with
    | some n =>
      if n ≠ 0 then fw.filter (fun w : Word => decide (w.length = n))
      else length_filters min_length max_length fw
    | none => length_filters min_length max_length fw
  fw.take limit

/-- Truthiness of an optional integer (Python `if n:`). -/
def truthyNat : Option Nat → Bool
  | none => false
  | some n => n != 0

/-- The per-word `continue` condition of `main_optimized.py`'s
`filter_words_simple` loop (lines 172-185); the string filters arrive
already lowercased and `None`-normalized. -/
def fws_skip (c s e : Option (List Char)) (mn mx ex : Option Nat) (w : Word) : Bool :=
  (match c with | none => false | some cv => !pyContains w cv) ||
  (match s with | none => false | some sv => !sv.isPrefixOf w) ||
  (match e with | none => false | some ev => !ev.isSuffixOf w) ||
  (if truthyNat ex then decide (w.length ≠ ex.getD 0)
   else
     (match mn with | none => false | some n => n != 0 && decide (w.length < n)) ||
     (match mx with | none => false | some n => n != 0 && decide (n < w.length)))

/-- The accumulation loop of `filter_words_simple` (lines 168-187): stop once
`limit` results are collected, else skip or append. -/
def fws_loop (c s e : Option (List Char)) (mn mx ex : Option Nat) (limit : Nat) :
    List Word → List Word → List Word
  | [], filtered => filtered
  | w :: ws, filtered =>
    if limit ≤ filtered.length then filtered
    else if fws_skip c s e mn mx ex w then fws_loop c s e mn mx ex limit ws filtered
    else fws_loop c s e mn mx ex limit ws (filtered ++ [w])

/-- The `None`-or-lowercased preprocessing of the string filters at the top
of `filter_words_simple` (Python truthiness: absent or empty becomes
`None`). -/
def normalize_filter (o : Option (List Char)) : Option (List Char) :=
  match o with
  | none => none
  | some v => if v.isEmpty then none else some (pyLower v)

/-- `main_optimized.py`'s `filter_words_simple` (lines 157-189): lowercase and
`None`-normalize the string filters (Python truthiness), then run the loop. -/
def filter_words_simple (words_list : List Word)
    (contains starts_with ends_with : Option (List Char))
    (min_length max_length exact_length : Option Nat) (limit : Nat) : List Word :=
  fws_loop (normalize_filter contains) (normalize_filter starts_with)
    (normalize_filter ends_with) min_length max_length exact_length limit words_list []

/-- The per-word pattern check of the interactive endpoints
(`main_s3.py` lines 202-211): positional zip, `?` wildcard, lowercased
comparison; positions beyond the shorter of pattern and word are never
compared. -/
def matches_pattern (pat w : List Char) : Bool :=
  (pat.zip w).all fun pw => pw.1 == '?' || pw.1.toLower == pw.2.toLower

/-- `main_s3.py`'s `get_interactive_words` endpoint (lines 185-214):
out-of-range length short-circuits to `[]`; otherwise filter by exact
length, then by pattern, then cap at 500. -/
def get_interactive_words (words_list : List Word) (len : Nat) (pat : List Char) :
    List Word :=
  if len < 1 ∨ 50 < len then []
  else
    let length_filtered := words_list.filter fun w => w.length == len
    let matched_words := length_filtered.filter fun w => matches_pattern pat w
    matched_words.take 500

/-! ### Helper lemmas about characters and Python string primitives -/

theorem uint32_le_iff_toNat_le {a b : UInt32} : a ≤ b ↔ a.toNat ≤ b.toNat := by
  rw [UInt32.le_def, BitVec.le_def]
  exact Iff.rfl

theorem char_toNat_ofNat {n : Nat} (h : n.isValidChar) : (Char.ofNat n).toNat = n := by
  rw [Char.ofNat, dif_pos h]
  rfl

theorem char_toLower_eq (c : Char) :
    Char.toLower c = if 65 ≤ c.toNat ∧ c.toNat ≤ 90 then Char.ofNat (c.toNat + 32) else c := rfl

theorem char_isUpper_iff {c : Char} : c.isUpper = true ↔ 65 ≤ c.toNat ∧ c.toNat ≤ 90 := by
  simp only [Char.isUpper, Bool.and_eq_true, decide_eq_true_eq, ge_iff_le,
    uint32_le_iff_toNat_le]
  exact Iff.rfl

theorem char_isLower_iff {c : Char} : c.isLower = true ↔ 97 ≤ c.toNat ∧ c.toNat ≤ 122 := by
  simp only [Char.isLower, Bool.and_eq_true, decide_eq_true_eq, ge_iff_le,
    uint32_le_iff_toNat_le]
  exact Iff.rfl

theorem char_isAlpha_iff {c : Char} :
    c.isAlpha = true ↔ (65 ≤ c.toNat ∧ c.toNat ≤ 90) ∨ (97 ≤ c.toNat ∧ c.toNat ≤ 122) := by
  simp only [Char.isAlpha, Bool.or_eq_true, char_isUpper_iff, char_isLower_iff]

theorem char_toNat_of_isWhitespace {c : Char} (h : c.isWhitespace = true) :
    c.toNat = 32 ∨ c.toNat = 9 ∨ c.toNat = 13 ∨ c.toNat = 10 := by
  simp only [Char.isWhitespace, Bool.or_eq_true, decide_eq_true_eq] at h
  rcases h with ((h | h) | h) | h <;> subst h <;> decide

theorem not_whitespace_of_isAlpha {c : Char} (h : c.isAlpha = true) :
    c.isWhitespace = false := by
  by_contra hw
  rw [Bool.not_eq_false] at hw
  have h1 := char_toNat_of_isWhitespace hw
  have h2 := char_isAlpha_iff.mp h
  omega

theorem isAlpha_toLower {c : Char} (h : c.isAlpha = true) :
    (Char.toLower c).isAlpha = true := by
  rw [char_toLower_eq]
  split
  · next hn =>
    have hv : (c.toNat + 32).isValidChar := Or.inl (by omega)
    rw [char_isAlpha_iff, char_toNat_ofNat hv]
    right
    omega
  · exact h

theorem dropWhile_eq_self_of_all {p : Char → Bool} {l : List Char}
    (h : ∀ c ∈ l, p c = false) : l.dropWhile p = l := by
  cases l with
  | nil => rfl
  | cons c t => simp [List.dropWhile_cons, h c (List.mem_cons_self c t)]

theorem pyStrip_eq_self_of_no_whitespace {s : List Char}
    (h : ∀ c ∈ s, c.isWhitespace = false) : pyStrip s = s := by
  unfold pyStrip
  rw [dropWhile_eq_self_of_all h,
    dropWhile_eq_self_of_all (fun c hc => h c (List.mem_reverse.mp hc)),
    List.reverse_reverse]

theorem pyStrip_eq_self_of_isAlpha {s : List Char} (h : pyIsAlpha s = true) :
    pyStrip s = s := by
  apply pyStrip_eq_self_of_no_whitespace
  intro c hc
  have hall : s.all Char.isAlpha = true := by
    simp only [pyIsAlpha, Bool.and_eq_true] at h
    exact h.2
  exact not_whitespace_of_isAlpha ((List.all_eq_true.mp hall) c hc)

theorem pyIsAlpha_pyLower {s : List Char} (h : pyIsAlpha s = true) :
    pyIsAlpha (pyLower s) = true := by
  simp only [pyIsAlpha, Bool.and_eq_true] at h ⊢
  obtain ⟨h1, h2⟩ := h
  constructor
  · cases s <;> simp_all [pyLower]
  · rw [List.all_eq_true] at h2 ⊢
    intro c hc
    obtain ⟨d, hd, rfl⟩ := List.mem_map.mp hc
    exact isAlpha_toLower (h2 d hd)

/-! ### Lemmas about the staging loops -/

theorem stage_removes_all_absent (ws : List (List Char)) (s : Finset Word) (n : Nat)
    (h : ∀ w ∈ ws, pyLower (pyStrip w) ∉ s) :
    WordManager.stage_removes ws s n = (s, n) := by
  induction ws with
  | nil => rfl
  | cons w ws ih =>
    unfold WordManager.stage_removes
    rw [if_neg (h w (List.mem_cons_self w ws))]
    exact ih fun w' hw' => h w' (List.mem_cons_of_mem w hw')

/-! ### C1 -/

/-- C1: the batch-add rollback is broken in `WordManager.add_words`.  At the
concrete failing input — empty collection, batch `["dog"]`, flush failing —
the operation reports an added count of zero, as the claim says, but the
staged word `"dog"` is still in the in-memory set afterwards: the guard of
the rollback comprehension on word_manager.py line 167 is always true, so
the collection does not return to its pre-batch state. -/
theorem batch_add_flush_failure_keeps_staged_words :
    (WordManager.add_words ⟨∅, []⟩ false [['d', 'o', 'g']]).2.1 = (0, 1) ∧
    (WordManager.add_words ⟨∅, []⟩ false [['d', 'o', 'g']]).1.words_set = {['d', 'o', 'g']} ∧
    ({['d', 'o', 'g']} : Finset Word) ≠ (∅ : Finset Word) := by decide

/-! ### C10 -/

/-- C10: a no-op mutation performs no store write.  Adding a word whose
normalized form is already in the collection, and removing a word whose
normalized form is absent, both return before `_save_words_to_s3` is ever
invoked (empty payload list) and leave the in-memory set and the store
untouched. -/
theorem noop_mutations_skip_store_write (m : WordManager) (save_ok : Bool) (w : List Char) :
    (pyLower (pyStrip w) ∈ m.words_set →
      (m.add_word save_ok w).1 = m ∧ (m.add_word save_ok w).2.2 = []) ∧
    (pyLower (pyStrip w) ∉ m.words_set →
      m.remove_word save_ok w = (m, true, [])) := by
  constructor
  · intro hmem
    unfold WordManager.add_word
    by_cases hv : (pyLower (pyStrip w)).isEmpty || !pyIsAlpha (pyLower (pyStrip w))
    · simp [hv]
    · simp [hv, hmem]
  · intro hmem
    unfold WordManager.remove_word
    simp [hmem]

/-- Witness for C10 at concrete inputs. -/
theorem noop_mutations_skip_store_write_witness :
    ((WordManager.add_word ⟨{['d', 'o', 'g']}, []⟩ true ['d', 'o', 'g']).1 =
        (⟨{['d', 'o', 'g']}, []⟩ : WordManager) ∧
      (WordManager.add_word ⟨{['d', 'o', 'g']}, []⟩ true ['d', 'o', 'g']).2.2 = []) ∧
    WordManager.remove_word ⟨{['d', 'o', 'g']}, []⟩ true ['c', 'a', 't'] =
      (⟨{['d', 'o', 'g']}, []⟩, true, []) :=
  ⟨(noop_mutations_skip_store_write _ _ _).1 (by decide),
   (noop_mutations_skip_store_write _ _ _).2 (by decide)⟩

/-! ### C6 -/

/-- C6 counterexample: `CivoWordManager.remove_word` on an absent word leaves
the state unchanged but reports `False` (failure), not success as the claim
states. -/
theorem civo_remove_absent_reports_failure :
    CivoWordManager.remove_word ⟨[], ∅⟩ true ['c', 'a', 't'] = (⟨[], ∅⟩, false) := by decide

/-- C6 (amended): removing an absent word never mutates state and never
flushes; `WordManager.remove_word` reports success, `CivoWordManager.remove_word`
reports `False`, and `WordManager.remove_words` over a list of absent words
counts zero removals without failing. -/
theorem remove_absent_is_noop :
    (∀ (m : WordManager) (save_ok : Bool) (w : List Char),
        pyLower (pyStrip w) ∉ m.words_set → m.remove_word save_ok w = (m, true, [])) ∧
    (∀ (c : CivoWordManager) (save_ok : Bool) (w : List Char),
        pyStrip (pyLower w) ∉ c.words_set → c.remove_word save_ok w = (c, false)) ∧
    (∀ (m : WordManager) (save_ok : Bool) (ws : List (List Char)),
        (∀ w ∈ ws, pyLower (pyStrip w) ∉ m.words_set) →
        m.remove_words save_ok ws = (m, (0, ws.length), [])) := by
  refine ⟨?_, ?_, ?_⟩
  · intro m save_ok w h
    unfold WordManager.remove_word
    simp [h]
  · intro c save_ok w h
    unfold CivoWordManager.remove_word
    simp [h]
  · intro m save_ok ws h
    unfold WordManager.remove_words
    rw [stage_removes_all_absent ws m.words_set 0 h]
    rfl

/-- Witness for C6's amended theorem at concrete inputs. -/
theorem remove_absent_is_noop_witness :
    WordManager.remove_word ⟨{['d', 'o', 'g']}, []⟩ true ['c', 'a', 't'] =
      (⟨{['d', 'o', 'g']}, []⟩, true, []) ∧
    CivoWordManager.remove_word ⟨[['d', 'o', 'g']], {['d', 'o', 'g']}⟩ true ['c', 'a', 't'] =
      (⟨[['d', 'o', 'g']], {['d', 'o', 'g']}⟩, false) ∧
    WordManager.remove_words ⟨{['d', 'o', 'g']}, []⟩ true [['c', 'a', 't'], ['e', 'e', 'l']] =
      (⟨{['d', 'o', 'g']}, []⟩, (0, 2), []) :=
  ⟨remove_absent_is_noop.1 _ _ _ (by decide),
   remove_absent_is_noop.2.1 _ _ _ (by decide),
   remove_absent_is_noop.2.2 _ _ _ (by decide)⟩

/-! ### C2 -/

/-- C2: single add rolls back on flush failure.  For a word not already in
the collection, when the store save fails the manager state (both views for
the Civo manager) is exactly restored, the operation reports failure, and
the word does not exist afterwards. -/
theorem add_word_rollback_on_flush_failure :
    (∀ (m : WordManager) (w : List Char),
        pyLower (pyStrip w) ∉ m.words_set →
        (m.add_word false w).1 = m ∧ (m.add_word false w).2.1 = false ∧
        (m.add_word false w).1.word_exists w = false) ∧
    (∀ (c : CivoWordManager) (w : List Char),
        pyStrip (pyLower w) ∉ c.words_set →
        pyStrip (pyLower w) ∉ c.words_list →
        pyLower w ∉ c.words_set →
        c.add_word false w = (c, false) ∧ (c.add_word false w).1.word_exists w = false) := by
  constructor
  · intro m w h
    unfold WordManager.add_word WordManager.save_words_to_s3
    by_cases hv : (pyLower (pyStrip w)).isEmpty || !pyIsAlpha (pyLower (pyStrip w))
    · simp [hv, WordManager.word_exists, h]
    · simp [hv, h, WordManager.word_exists, Finset.erase_insert h]
  · intro c w h1 h2 h3
    have hstate : c.add_word false w = (c, false) := by
      simp only [CivoWordManager.add_word]
      by_cases he : pyStrip (pyLower w) = []
      · rw [if_neg fun hcon => hcon.1 he]
      · rw [if_pos ⟨he, h1⟩]
        simp only [Bool.false_eq_true, if_false]
        rw [List.erase_append_right _ h2, List.erase_cons_head, List.append_nil,
          Finset.erase_insert h1]
    refine ⟨hstate, ?_⟩
    rw [hstate]
    simp [CivoWordManager.word_exists, h3]

/-- Witness for C2 at concrete inputs. -/
theorem add_word_rollback_on_flush_failure_witness :
    ((WordManager.add_word ⟨∅, []⟩ false ['d', 'o', 'g']).1 = (⟨∅, []⟩ : WordManager) ∧
      (WordManager.add_word ⟨∅, []⟩ false ['d', 'o', 'g']).2.1 = false ∧
      (WordManager.add_word ⟨∅, []⟩ false ['d', 'o', 'g']).1.word_exists ['d', 'o', 'g'] = false) ∧
    (CivoWordManager.add_word ⟨[], ∅⟩ false ['d', 'o', 'g'] = (⟨[], ∅⟩, false) ∧
      (CivoWordManager.add_word ⟨[], ∅⟩ false ['d', 'o', 'g']).1.word_exists ['d', 'o', 'g'] = false) :=
  ⟨add_word_rollback_on_flush_failure.1 _ _ (by decide),
   add_word_rollback_on_flush_failure.2 _ _ (by decide) (by decide) (by decide)⟩

/-! ### C7 -/

/-- C7: add is idempotent.  If `add_single_word` answers with a success
payload (whether the word was fresh or already present), then calling it
again with the same raw word — under any store behavior, since the
duplicate is detected before any flush — reports success with
`was_new = false` and returns the state unchanged. -/
theorem add_idempotent_second_add_reports_not_new
    (m : WordManager) (ok1 ok2 : Bool) (w : List Char) (m1 : WordManager) (b : Bool)
    (h : add_single_word m ok1 w = (m1, ApiResult.ok b)) :
    add_single_word m1 ok2 w = (m1, ApiResult.ok false) := by
  unfold add_single_word at h ⊢
  by_cases hempty : (pyStrip w).isEmpty
  · rw [if_pos hempty] at h
    exact absurd (congrArg Prod.snd h) (by simp)
  · rw [if_neg hempty] at h ⊢
    by_cases halpha : pyIsAlpha (pyStrip w) = true
    · rw [if_neg (by simp [halpha])] at h ⊢
      by_cases hex : m.word_exists (pyStrip w) = true
      · rw [if_pos hex] at h
        injection h with hm hr
        subst hm
        rw [if_pos hex]
      · rw [if_neg hex] at h
        rcases hadd : m.add_word ok1 (pyStrip w) with ⟨ma, success, writes⟩
        rw [hadd] at h
        cases success with
        | false => exact absurd (congrArg Prod.snd h) (by simp)
        | true =>
          injection h with hm hr
          subst hm
          have hmem : pyLower (pyStrip (pyStrip w)) ∈ ma.words_set := by
            unfold WordManager.add_word WordManager.save_words_to_s3 at hadd
            by_cases hv : (pyLower (pyStrip (pyStrip w))).isEmpty ||
                !pyIsAlpha (pyLower (pyStrip (pyStrip w)))
            · rw [if_pos hv] at hadd
              exact absurd (congrArg (Prod.fst ∘ Prod.snd) hadd) (by simp)
            · rw [if_neg hv] at hadd
              have hnmem : pyLower (pyStrip (pyStrip w)) ∉ m.words_set := by
                intro hc
                exact hex (by simpa [WordManager.word_exists] using hc)
              rw [if_neg hnmem] at hadd
              cases ok1 with
              | false =>
                simp only [Bool.false_eq_true, if_false] at hadd
                exact absurd (congrArg (Prod.fst ∘ Prod.snd) hadd) (by simp)
              | true =>
                simp only [eq_self_iff_true, if_true] at hadd
                have hfst := congrArg Prod.fst hadd
                simp only at hfst
                rw [← hfst]
                exact Finset.mem_insert_self _ _
          have hex1 : ma.word_exists (pyStrip w) = true := by
            simpa [WordManager.word_exists] using hmem
          rw [if_pos hex1]
    · rw [Bool.not_eq_true] at halpha
      rw [if_pos (by rw [halpha]; rfl)] at h
      exact absurd (congrArg Prod.snd h) (by simp)

/-- Witness for C7 at a concrete input: a successful first add of `"dog"`
into the empty collection. -/
theorem add_idempotent_second_add_reports_not_new_witness :
    add_single_word
        (add_single_word ⟨∅, []⟩ true ['d', 'o', 'g']).1 true ['d', 'o', 'g'] =
      ((add_single_word ⟨∅, []⟩ true ['d', 'o', 'g']).1, ApiResult.ok false) :=
  add_idempotent_second_add_reports_not_new ⟨∅, []⟩ true true ['d', 'o', 'g'] _ true (by decide)

/-! ### C8 -/

/-- C8: interactive query boundary and cap.  A length outside 1..50 yields
the empty list (not an error), and any result has at most 500 words. -/
theorem interactive_range_and_cap (wl : List Word) (len : Nat) (pat : List Char) :
    (len = 0 ∨ 50 < len → get_interactive_words wl len pat = []) ∧
    (get_interactive_words wl len pat).length ≤ 500 := by
  constructor
  · intro h
    unfold get_interactive_words
    rw [if_pos]
    rcases h with h | h
    · left
      omega
    · right
      exact h
  · unfold get_interactive_words
    split
    · simp
    · exact List.length_take_le 500 _

/-- Witness for C8 at concrete inputs: out-of-range length 51, and an
in-range query. -/
theorem interactive_range_and_cap_witness :
    get_interactive_words [['h', 'i']] 51 ['?'] = [] ∧
    (get_interactive_words [['h', 'i']] 2 ['?', 'i']).length ≤ 500 :=
  ⟨(interactive_range_and_cap [['h', 'i']] 51 ['?']).1 (Or.inr (by decide)),
   (interactive_range_and_cap [['h', 'i']] 2 ['?', 'i']).2⟩

/-! ### C3 -/

/-- The word format invariant of the spec: non-empty, all-alphabetic. -/
def good_word (w : Word) : Prop := w ≠ [] ∧ w.all Char.isAlpha = true

/-- The collection invariant for the `WordManager` engine. -/
def wm_invariant (m : WordManager) : Prop := ∀ w ∈ m.words_set, good_word w

instance wm_invariant_decidable (m : WordManager) : Decidable (wm_invariant m) :=
  decidable_of_iff (∀ w ∈ m.words_set, w ≠ [] ∧ w.all Char.isAlpha = true) Iff.rfl

theorem pyIsAlpha_ne_nil {s : List Char} (h : pyIsAlpha s = true) : s ≠ [] := by
  simp only [pyIsAlpha, Bool.and_eq_true] at h
  simpa using h.1

theorem good_of_pyIsAlpha {s : List Char} (h : pyIsAlpha s = true) : good_word s := by
  refine ⟨pyIsAlpha_ne_nil h, ?_⟩
  simp only [pyIsAlpha, Bool.and_eq_true] at h
  exact h.2

theorem stage_adds_good (ws : List (List Char)) :
    ∀ (s : Finset Word) (n : Nat), (∀ w ∈ s, good_word w) →
      ∀ w ∈ (WordManager.stage_adds ws s n).1, good_word w := by
  induction ws with
  | nil => intro s n h; exact h
  | cons w ws ih =>
    intro s n h
    simp only [WordManager.stage_adds]
    split
    · next hcond =>
      refine ih _ _ ?_
      intro x hx
      rcases Finset.mem_insert.mp hx with he | hs
      · exact he ▸ good_of_pyIsAlpha hcond.2.1
      · exact h x hs
    · exact ih _ _ h

theorem stage_removes_subset (ws : List (List Char)) :
    ∀ (s : Finset Word) (n : Nat), (WordManager.stage_removes ws s n).1 ⊆ s := by
  induction ws with
  | nil => intro s n; exact Finset.Subset.refl s
  | cons w ws ih =>
    intro s n
    simp only [WordManager.stage_removes]
    split
    · exact (ih _ _).trans (Finset.erase_subset _ _)
    · exact ih _ _

theorem finsetSorted_sorted (s : Finset Word) : List.Sorted (· ≤ ·) (finsetSorted s) := by
  rcases s with ⟨m, hm⟩
  induction m using Quotient.inductionOn with
  | h l => exact List.sorted_insertionSort (· ≤ ·) l

theorem mem_finsetSorted (s : Finset Word) (w : Word) : w ∈ finsetSorted s ↔ w ∈ s := by
  rcases s with ⟨m, hm⟩
  induction m using Quotient.inductionOn with
  | h l =>
    show w ∈ l.insertionSort (· ≤ ·) ↔ _
    rw [List.mem_insertionSort]
    rfl

theorem parse_store_ne_nil (content : List Char) :
    ∀ w ∈ WordManager.parse_store content, w ≠ [] := by
  intro w hw
  unfold WordManager.parse_store at hw
  obtain ⟨l, hl, rfl⟩ := List.mem_map.mp hw
  have hne := (List.mem_filter.mp hl).2
  intro hcon
  have : pyStrip l = [] := by
    have := List.map_eq_nil_iff.mp hcon
    exact this
  simp [this] at hne

/-- C3 counterexample: `CivoWordManager.add_word` performs no alphabetic
validation, so a mutation of the engine can introduce a word that violates
the invariant: adding `"abc123"` to the empty Civo collection succeeds and
stores the non-alphabetic word. -/
theorem civo_add_word_accepts_nonalphabetic :
    (CivoWordManager.add_word ⟨[], ∅⟩ true ['a', 'b', 'c', '1', '2', '3']).2 = true ∧
    ['a', 'b', 'c', '1', '2', '3'] ∈
      (CivoWordManager.add_word ⟨[], ∅⟩ true ['a', 'b', 'c', '1', '2', '3']).1.words_set ∧
    pyIsAlpha ['a', 'b', 'c', '1', '2', '3'] = false := by decide

/-- Case analysis of the set view after `WordManager.add_word`: either
unchanged, or the normalized word (validated alphabetic) was inserted. -/
theorem add_word_set_cases (m : WordManager) (save_ok : Bool) (w : List Char) :
    (m.add_word save_ok w).1.words_set = m.words_set ∨
    ((m.add_word save_ok w).1.words_set = insert (pyLower (pyStrip w)) m.words_set ∧
      pyIsAlpha (pyLower (pyStrip w)) = true) := by
  unfold WordManager.add_word WordManager.save_words_to_s3
  by_cases hv : (pyLower (pyStrip w)).isEmpty || !pyIsAlpha (pyLower (pyStrip w))
  · left
    simp [hv]
  · by_cases hmem : pyLower (pyStrip w) ∈ m.words_set
    · left
      simp [hv, hmem]
    · cases save_ok with
      | true =>
        right
        refine ⟨by simp [hv, hmem], ?_⟩
        simp only [Bool.or_eq_true, not_or, Bool.not_eq_true] at hv
        simpa using hv.2
      | false =>
        left
        simp [hv, hmem, Finset.erase_insert hmem]

/-- Case analysis of the set view after `WordManager.remove_word`. -/
theorem remove_word_set_cases (m : WordManager) (save_ok : Bool) (w : List Char) :
    (m.remove_word save_ok w).1.words_set = m.words_set ∨
    (m.remove_word save_ok w).1.words_set = m.words_set.erase (pyLower (pyStrip w)) := by
  unfold WordManager.remove_word WordManager.save_words_to_s3
  by_cases hmem : pyLower (pyStrip w) ∉ m.words_set
  · left
    simp [hmem]
  · cases save_ok with
    | true =>
      right
      simp [hmem]
    | false =>
      left
      simp [hmem, Finset.insert_erase (not_not.mp hmem)]

/-- The set view after `WordManager.add_words` is contained in the staged
set (on flush failure the broken rollback keeps a `filter` of it). -/
theorem add_words_set_subset (m : WordManager) (save_ok : Bool) (ws : List (List Char)) :
    (m.add_words save_ok ws).1.words_set ⊆ (WordManager.stage_adds ws m.words_set 0).1 := by
  unfold WordManager.add_words WordManager.save_words_to_s3
  rcases hst : WordManager.stage_adds ws m.words_set 0 with ⟨staged, cnt⟩
  by_cases hc : 0 < cnt
  · cases save_ok with
    | true =>
      simp [hc]
    | false =>
      simp only [Bool.false_eq_true, if_false, hc, if_pos hc]
      exact Finset.filter_subset _ _
  · simp [hc]

/-- The set view after `WordManager.remove_words`: unchanged (rollback or
no-op) or the staged result. -/
theorem remove_words_set_cases (m : WordManager) (save_ok : Bool) (ws : List (List Char)) :
    (m.remove_words save_ok ws).1.words_set = m.words_set ∨
    (m.remove_words save_ok ws).1.words_set = (WordManager.stage_removes ws m.words_set 0).1 := by
  unfold WordManager.remove_words WordManager.save_words_to_s3
  rcases hst : WordManager.stage_removes ws m.words_set 0 with ⟨staged, cnt⟩
  by_cases hc : 0 < cnt
  · cases save_ok with
    | true =>
      right
      simp [hc]
    | false =>
      left
      simp [hc]
  · right
    simp [hc]

/-- C3 (amended): restricted to the `WordManager` engine.  Every mutation
(add, batch add, remove, batch remove) preserves the invariant that all held
words are non-empty and purely alphabetic; the derived sequence view always
equals the set view in membership; bulk listing, and the sequence handed to
every persist, are in ascending lexicographic order; and loading drops blank
lines, so every loaded word is non-empty (alphabeticity, however, is not
re-checked on load, and the Civo engine checks neither). -/
theorem wm_collection_invariant_preserved :
    (∀ (m : WordManager) (save_ok : Bool) (w : List Char),
        wm_invariant m → wm_invariant (m.add_word save_ok w).1) ∧
    (∀ (m : WordManager) (save_ok : Bool) (ws : List (List Char)),
        wm_invariant m → wm_invariant (m.add_words save_ok ws).1) ∧
    (∀ (m : WordManager) (save_ok : Bool) (w : List Char),
        wm_invariant m → wm_invariant (m.remove_word save_ok w).1) ∧
    (∀ (m : WordManager) (save_ok : Bool) (ws : List (List Char)),
        wm_invariant m → wm_invariant (m.remove_words save_ok ws).1) ∧
    (∀ m : WordManager, List.Sorted (· ≤ ·) m.get_words_list ∧
        ∀ w, w ∈ m.get_words_list ↔ w ∈ m.words_set) ∧
    (∀ content : List Char, ∀ w ∈ WordManager.parse_store content, w ≠ []) ∧
    (∀ ws : List Word, List.Sorted (· ≤ ·) (sortWords ws) ∧ ∀ w, w ∈ sortWords ws ↔ w ∈ ws) := by
  refine ⟨?_, ?_, ?_, ?_, ?_, parse_store_ne_nil, ?_⟩
  · intro m save_ok w hInv
    rcases add_word_set_cases m save_ok w with hs | ⟨hs, halpha⟩
    · intro x hx
      exact hInv x (hs ▸ hx)
    · intro x hx
      rw [hs] at hx
      rcases Finset.mem_insert.mp hx with he | hm
      · exact he ▸ good_of_pyIsAlpha halpha
      · exact hInv x hm
  · intro m save_ok ws hInv
    intro x hx
    exact stage_adds_good ws m.words_set 0 hInv x (add_words_set_subset m save_ok ws hx)
  · intro m save_ok w hInv
    rcases remove_word_set_cases m save_ok w with hs | hs
    · intro x hx
      exact hInv x (hs ▸ hx)
    · intro x hx
      rw [hs] at hx
      exact hInv x (Finset.mem_of_mem_erase hx)
  · intro m save_ok ws hInv
    rcases remove_words_set_cases m save_ok ws with hs | hs
    · intro x hx
      exact hInv x (hs ▸ hx)
    · intro x hx
      rw [hs] at hx
      exact hInv x (stage_removes_subset ws m.words_set 0 hx)
  · intro m
    exact ⟨finsetSorted_sorted m.words_set, fun w => mem_finsetSorted m.words_set w⟩
  · intro ws
    exact ⟨List.sorted_insertionSort (· ≤ ·) ws, fun w => List.mem_insertionSort (· ≤ ·)⟩

/-- Witness for C3's amended theorem at concrete inputs. -/
theorem wm_collection_invariant_preserved_witness :
    wm_invariant (WordManager.add_word ⟨{['d', 'o', 'g']}, []⟩ true ['c', 'a', 't']).1 ∧
    wm_invariant (WordManager.add_words ⟨{['d', 'o', 'g']}, []⟩ false [['c', 'a', 't']]).1 ∧
    wm_invariant (WordManager.remove_word ⟨{['d', 'o', 'g']}, []⟩ false ['d', 'o', 'g']).1 ∧
    wm_invariant (WordManager.remove_words ⟨{['d', 'o', 'g']}, []⟩ true [['d', 'o', 'g']]).1 :=
  ⟨wm_collection_invariant_preserved.1 _ true _ (by decide),
   wm_collection_invariant_preserved.2.1 _ false _ (by decide),
   wm_collection_invariant_preserved.2.2.1 _ false _ (by decide),
   wm_collection_invariant_preserved.2.2.2.1 _ true _ (by decide)⟩

/-! ### C9 -/

theorem splitNl_no_newline {l : List Char} (h : ∀ c ∈ l, c ≠ '\n') : splitNl l = [l] := by
  induction l with
  | nil => rfl
  | cons c t ih =>
    simp only [splitNl]
    rw [if_neg (h c (List.mem_cons_self c t)),
      ih fun x hx => h x (List.mem_cons_of_mem _ hx)]

theorem splitNl_append_newline {a : List Char} (t : List Char) (h : ∀ c ∈ a, c ≠ '\n') :
    splitNl (a ++ '\n' :: t) = a :: splitNl t := by
  induction a with
  | nil => simp [splitNl]
  | cons c a' ih =>
    have hih := ih fun x hx => h x (List.mem_cons_of_mem _ hx)
    simp only [List.cons_append, splitNl, List.append_eq] at hih ⊢
    rw [if_neg (h c (List.mem_cons_self _ _)), hih]

/-- Loading back content written by a single save recovers exactly the saved
lines, provided each line is a non-empty, newline-free word that `strip` and
`lower` leave unchanged (which holds for every word the engine stores). -/
theorem parse_store_joinNl {ls : List (List Char)}
    (h : ∀ w ∈ ls, w ≠ [] ∧ (∀ c ∈ w, c ≠ '\n') ∧ pyStrip w = w ∧ pyLower w = w) :
    WordManager.parse_store (joinNl ls) = ls := by
  induction ls with
  | nil => rfl
  | cons a ls ih =>
    obtain ⟨ha_ne, ha_nl, ha_strip, ha_lower⟩ := h a (List.mem_cons_self _ _)
    have hrest := fun w hw => h w (List.mem_cons_of_mem a hw)
    have hkeep : (!(pyStrip a).isEmpty) = true := by
      rw [ha_strip]
      simpa using ha_ne
    have hkeep2 : (!a.isEmpty) = true := ha_strip ▸ hkeep
    cases ls with
    | nil =>
      unfold WordManager.parse_store
      rw [show joinNl [a] = a from rfl, splitNl_no_newline ha_nl]
      simp only [List.filter_cons, List.filter_nil, hkeep, hkeep2, ha_strip, ha_lower,
        eq_self_iff_true, if_true, List.map_cons, List.map_nil]
    | cons b ls' =>
      unfold WordManager.parse_store at ih ⊢
      rw [show joinNl (a :: b :: ls') = a ++ '\n' :: joinNl (b :: ls') from rfl,
        splitNl_append_newline _ ha_nl]
      simp only [List.filter_cons, hkeep, hkeep2, ha_strip, ha_lower, eq_self_iff_true,
        if_true, List.map_cons]
      rw [ih hrest]

theorem sortWords_sorted (ws : List Word) : List.Sorted (· ≤ ·) (sortWords ws) :=
  List.sorted_insertionSort (· ≤ ·) ws

theorem sortWords_idem (ws : List Word) : sortWords (sortWords ws) = sortWords ws :=
  List.Sorted.insertionSort_eq (sortWords_sorted ws)

theorem mem_sortWords {w : Word} {ws : List Word} : w ∈ sortWords ws ↔ w ∈ ws :=
  List.mem_insertionSort (· ≤ ·)

/-- C9: persistence round trip and format stability.  For a collection of
engine words (non-empty, newline-free, already stripped and lowercase):
every successful save writes `'\n'.join(sorted(words))` and reports success;
the written line sequence is sorted ascending, with every line a non-empty
lowercase word (no blank lines); parsing the written content back recovers
exactly the sorted word sequence, with the same membership as the original
collection; and saving what was loaded reproduces the identical content, so
a second save-load round trip is stable. -/
theorem persistence_round_trip (ws : List Word)
    (h : ∀ w ∈ ws, w ≠ [] ∧ (∀ c ∈ w, c ≠ '\n') ∧ pyStrip w = w ∧ pyLower w = w) :
    (∀ m : WordManager, (m.save_words_to_s3 true ws).1.store = joinNl (sortWords ws) ∧
        (m.save_words_to_s3 true ws).2 = true) ∧
    List.Sorted (· ≤ ·) (sortWords ws) ∧
    (∀ w ∈ sortWords ws, w ≠ [] ∧ pyLower w = w) ∧
    WordManager.parse_store (joinNl (sortWords ws)) = sortWords ws ∧
    joinNl (sortWords (sortWords ws)) = joinNl (sortWords ws) ∧
    (∀ w, w ∈ WordManager.parse_store (joinNl (sortWords ws)) ↔ w ∈ ws) := by
  have hsorted : ∀ w ∈ sortWords ws,
      w ≠ [] ∧ (∀ c ∈ w, c ≠ '\n') ∧ pyStrip w = w ∧ pyLower w = w :=
    fun w hw => h w (mem_sortWords.mp hw)
  refine ⟨fun m => ⟨rfl, rfl⟩, sortWords_sorted ws, ?_, parse_store_joinNl hsorted, ?_, ?_⟩
  · intro w hw
    obtain ⟨h1, _, _, h4⟩ := hsorted w hw
    exact ⟨h1, h4⟩
  · rw [sortWords_idem]
  · intro w
    rw [parse_store_joinNl hsorted]
    exact mem_sortWords

/-- Witness for C9 at a concrete collection. -/
theorem persistence_round_trip_witness :
    WordManager.parse_store (joinNl (sortWords [['b'], ['a']])) = sortWords [['b'], ['a']] ∧
    joinNl (sortWords (sortWords [['b'], ['a']])) = joinNl (sortWords [['b'], ['a']]) ∧
    List.Sorted (· ≤ ·) (sortWords [['b'], ['a']]) :=
  ⟨(persistence_round_trip [['b'], ['a']] (by decide)).2.2.2.1,
   (persistence_round_trip [['b'], ['a']] (by decide)).2.2.2.2.1,
   (persistence_round_trip [['b'], ['a']] (by decide)).2.1⟩

/-! ### C5 -/

/-- The positional reading of `matches_pattern`: the zip compares only
positions below both lengths, with the `?` wildcard or case-insensitive
equality. -/
theorem matches_pattern_iff (pat w : List Char) :
    matches_pattern pat w = true ↔
      ∀ i (hp : i < pat.length) (hw : i < w.length),
        pat[i] = '?' ∨ (pat[i]).toLower = (w[i]).toLower := by
  unfold matches_pattern
  rw [List.all_eq_true]
  constructor
  · intro h i hp hw
    have hz : i < (pat.zip w).length := by
      rw [List.length_zip]
      omega
    have hmem := h ((pat.zip w).get ⟨i, hz⟩) (List.get_mem _ _ hz)
    rw [List.get_eq_getElem, List.getElem_zip] at hmem
    simpa [Bool.or_eq_true, beq_iff_eq] using hmem
  · intro h x hx
    obtain ⟨i, hz, rfl⟩ := List.mem_iff_getElem.mp hx
    have hp : i < pat.length := by
      rw [List.length_zip] at hz
      omega
    have hw : i < w.length := by
      rw [List.length_zip] at hz
      omega
    rw [List.getElem_zip]
    simp only [Bool.or_eq_true, beq_iff_eq]
    exact h i hp hw

/-- C5 (amended): for an in-range length, provided at most 500 words match
(the endpoint truncates the result to the first 500 matching words), a word
is returned by the interactive query iff it is in the collection, has
exactly the requested length, and at every position covered by both the
pattern and the word the pattern character is the `?` wildcard or
case-insensitively equal to the word's character; positions beyond the
shorter of pattern and word are never compared. -/
theorem interactive_match_iff (wl : List Word) (len : Nat) (pat : List Char)
    (h1 : 1 ≤ len) (h2 : len ≤ 50)
    (hcap : (wl.filter fun w => matches_pattern pat w && (w.length == len)).length ≤ 500) :
    ∀ w, w ∈ get_interactive_words wl len pat ↔
      w ∈ wl ∧ w.length = len ∧
        ∀ i (hp : i < pat.length) (hw : i < w.length),
          pat[i] = '?' ∨ (pat[i]).toLower = (w[i]).toLower := by
  intro w
  unfold get_interactive_words
  rw [if_neg (by omega)]
  simp only [List.filter_filter]
  rw [List.take_of_length_le hcap, List.mem_filter]
  constructor
  · rintro ⟨hmem, hcond⟩
    simp only [Bool.and_eq_true, beq_iff_eq] at hcond
    exact ⟨hmem, hcond.2, (matches_pattern_iff pat w).mp hcond.1⟩
  · rintro ⟨hmem, hlen, hmatch⟩
    refine ⟨hmem, ?_⟩
    simp only [Bool.and_eq_true, beq_iff_eq]
    exact ⟨(matches_pattern_iff pat w).mpr hmatch, hlen⟩

/-- Witness for C5's amended theorem at a concrete collection and pattern. -/
theorem interactive_match_iff_witness :
    ['a', 'x'] ∈ get_interactive_words [['a', 'x'], ['b', 'x'], ['a']] 2 ['a', '?'] :=
  (interactive_match_iff [['a', 'x'], ['b', 'x'], ['a']] 2 ['a', '?'] (by decide) (by decide)
      (by decide) ['a', 'x']).mpr ⟨by decide, by decide, by decide⟩

/-- The lowercase alphabet, as a character list. -/
def lettersAZ : List Char := ['a', 'b', 'c', 'd', 'e', 'f', 'g', 'h', 'i', 'j', 'k', 'l', 'm',
  'n', 'o', 'p', 'q', 'r', 's', 't', 'u', 'v', 'w', 'x', 'y', 'z']

/-- 501 distinct two-letter words (all two-letter combinations, truncated). -/
def overflow_words : List Word :=
  (lettersAZ.flatMap fun a => lettersAZ.map fun b => [a, b]).take 501

/-- C5 counterexample: with 501 two-letter words in the collection, the word
`"tg"` (the 501st) satisfies the match predicate for `length = 2` and the
empty pattern (every position unconstrained), yet it is not returned: the
endpoint truncates to 500 results, so "returned iff matches" fails as
stated. -/
theorem interactive_cap_drops_matching_word :
    ['t', 'g'] ∈ overflow_words ∧ ['t', 'g'].length = 2 ∧
    matches_pattern [] ['t', 'g'] = true ∧
    ['t', 'g'] ∉ get_interactive_words overflow_words 2 [] := by decide

/-! ### C4 -/

theorem pyContains_iff (hay needle : List Char) :
    pyContains hay needle = true ↔ ∃ pre post, hay = pre ++ (needle ++ post) := by
  induction hay with
  | nil =>
    simp only [pyContains, List.isEmpty_iff]
    constructor
    · rintro rfl
      exact ⟨[], [], rfl⟩
    · rintro ⟨pre, post, h⟩
      rcases List.append_eq_nil.mp h.symm with ⟨_, h2⟩
      exact (List.append_eq_nil.mp h2).1
  | cons c t ih =>
    simp only [pyContains, Bool.or_eq_true, ih]
    constructor
    · rintro (hpre | ⟨pre, post, rfl⟩)
      · obtain ⟨post, hpost⟩ := List.isPrefixOf_iff_prefix.mp hpre
        exact ⟨[], post, by simp [← hpost]⟩
      · exact ⟨c :: pre, post, rfl⟩
    · rintro ⟨pre, post, heq⟩
      cases pre with
      | nil =>
        left
        apply List.isPrefixOf_iff_prefix.mpr
        exact ⟨post, by simpa using heq.symm⟩
      | cons p ps =>
        right
        injection heq with h1 h2
        exact ⟨ps, post, h2⟩

theorem isPrefixOf_iff_exists (p w : List Char) :
    p.isPrefixOf w = true ↔ ∃ post, w = p ++ post := by
  rw [List.isPrefixOf_iff_prefix]
  constructor
  · rintro ⟨t, rfl⟩
    exact ⟨t, rfl⟩
  · rintro ⟨t, rfl⟩
    exact ⟨t, rfl⟩

theorem isSuffixOf_iff_exists (s w : List Char) :
    s.isSuffixOf w = true ↔ ∃ pre, w = pre ++ s := by
  rw [List.isSuffixOf_iff_suffix]
  constructor
  · rintro ⟨t, rfl⟩
    exact ⟨t, rfl⟩
  · rintro ⟨t, rfl⟩
    exact ⟨t, rfl⟩

/-- The active-predicate contract of the query operation: every filter that
is provided and truthy holds of the returned word (compared on lowercase
forms); `exact_length` wins over `min_length`/`max_length`, which only apply
when `exact_length` is falsy. -/
def satisfies_query (contains starts_with ends_with : Option (List Char))
    (min_length max_length exact_length : Option Nat) (w : Word) : Prop :=
  (∀ c, contains = some c → c ≠ [] → ∃ pre post, pyLower w = pre ++ (pyLower c ++ post)) ∧
  (∀ s, starts_with = some s → s ≠ [] → ∃ post, pyLower w = pyLower s ++ post) ∧
  (∀ e, ends_with = some e → e ≠ [] → ∃ pre, pyLower w = pre ++ pyLower e) ∧
  (∀ n, exact_length = some n → n ≠ 0 → w.length = n) ∧
  (truthyNat exact_length = false →
    (∀ n, min_length = some n → n ≠ 0 → n ≤ w.length) ∧
    (∀ n, max_length = some n → n ≠ 0 → w.length ≤ n))

/-- Unpacks membership through one conditional string-filter stage of
`get_filtered_words`. -/
theorem mem_of_opt_filter (f : List Char → Word → Bool) {wl : List Word} {w : Word}
    {o : Option (List Char)}
    (h : w ∈ (match o with
              | none => wl
              | some c => if c.isEmpty then wl else wl.filter (f c))) :
    w ∈ wl ∧ ∀ c, o = some c → c ≠ [] → f c w = true := by
  split at h
  · exact ⟨h, by simp⟩
  · next c =>
    by_cases hc : c.isEmpty
    · rw [if_pos hc] at h
      refine ⟨h, ?_⟩
      intro c' hc' hne
      injection hc' with he
      subst he
      exact absurd (List.isEmpty_iff.mp hc) hne
    · rw [if_neg hc] at h
      obtain ⟨hmem, hf⟩ := List.mem_filter.mp h
      refine ⟨hmem, ?_⟩
      intro c' hc' _
      injection hc' with he
      subst he
      exact hf

/-- Unpacks membership through the `min_length`/`max_length` stage. -/
theorem mem_length_filters {fw : List Word} {w : Word} {mn mx : Option Nat}
    (h : w ∈ length_filters mn mx fw) :
    w ∈ fw ∧ (∀ n, mn = some n → n ≠ 0 → n ≤ w.length) ∧
      (∀ n, mx = some n → n ≠ 0 → w.length ≤ n) := by
  unfold length_filters at h
  have step : ∀ (l : List Word) (o : Option Nat),
      w ∈ (match o with
           | none => l
           | some n => if n ≠ 0 then l.filter (fun w => decide (n ≤ w.length)) else l) →
      w ∈ l ∧ ∀ n, o = some n → n ≠ 0 → n ≤ w.length := by
    intro l o ho
    split at ho
    · exact ⟨ho, by simp⟩
    · next n =>
      by_cases hn : n ≠ 0
      · rw [if_pos hn] at ho
        obtain ⟨hmem, hf⟩ := List.mem_filter.mp ho
        refine ⟨hmem, ?_⟩
        intro n' hn' _
        injection hn' with he
        subst he
        exact of_decide_eq_true hf
      · rw [if_neg hn] at ho
        refine ⟨ho, ?_⟩
        intro n' hn' hne
        injection hn' with he
        subst he
        exact absurd hne hn
  have stepmax : ∀ (l : List Word) (o : Option Nat),
      w ∈ (match o with
           | none => l
           | some n => if n ≠ 0 then l.filter (fun w => decide (w.length ≤ n)) else l) →
      w ∈ l ∧ ∀ n, o = some n → n ≠ 0 → w.length ≤ n := by
    intro l o ho
    split at ho
    · exact ⟨ho, by simp⟩
    · next n =>
      by_cases hn : n ≠ 0
      · rw [if_pos hn] at ho
        obtain ⟨hmem, hf⟩ := List.mem_filter.mp ho
        refine ⟨hmem, ?_⟩
        intro n' hn' _
        injection hn' with he
        subst he
        exact of_decide_eq_true hf
      · rw [if_neg hn] at ho
        refine ⟨ho, ?_⟩
        intro n' hn' hne
        injection hn' with he
        subst he
        exact absurd hne hn
  obtain ⟨h1, hmax⟩ := stepmax _ mx h
  obtain ⟨h2, hmin⟩ := step _ mn h1
  exact ⟨h2, hmin, hmax⟩

/-- Unpacks membership through the `exact_length` stage of
`get_filtered_words`: `exact_length`, when truthy, replaces the min/max
checks entirely. -/
theorem mem_exact_stage {fw : List Word} {w : Word} {mn mx ex : Option Nat}
    (h : w ∈ (match ex with
              | some n =>
                if n ≠ 0 then fw.filter (fun w : Word => decide (w.length = n))
                else length_filters mn mx fw
              | none => length_filters mn mx fw)) :
    w ∈ fw ∧ (∀ n, ex = some n → n ≠ 0 → w.length = n) ∧
      (truthyNat ex = false →
        (∀ n, mn = some n → n ≠ 0 → n ≤ w.length) ∧
        (∀ n, mx = some n → n ≠ 0 → w.length ≤ n)) := by
  split at h
  · next n =>
    by_cases hn : n ≠ 0
    · rw [if_pos hn] at h
      obtain ⟨hmem, hf⟩ := List.mem_filter.mp h
      refine ⟨hmem, ?_, ?_⟩
      · intro n' hn' _
        injection hn' with he
        subst he
        exact of_decide_eq_true hf
      · intro htr
        simp only [truthyNat, bne_eq_false_iff_eq] at htr
        exact absurd htr hn
    · rw [if_neg hn] at h
      obtain ⟨hmem, hmin, hmax⟩ := mem_length_filters h
      refine ⟨hmem, ?_, fun _ => ⟨hmin, hmax⟩⟩
      intro n' hn' hne
      injection hn' with he
      subst he
      exact absurd (not_not.mp hn) hne
  · obtain ⟨hmem, hmin, hmax⟩ := mem_length_filters h
    exact ⟨hmem, by simp, fun _ => ⟨hmin, hmax⟩⟩

/-- Every word returned by `get_filtered_words` comes from the collection
and satisfies all active predicates. -/
theorem get_filtered_words_sound (wl : List Word)
    (contains starts_with ends_with : Option (List Char))
    (mn mx ex : Option Nat) (limit : Nat) (hlow : ∀ w ∈ wl, pyLower w = w) :
    ∀ w ∈ get_filtered_words wl contains starts_with ends_with mn mx ex limit,
      w ∈ wl ∧ satisfies_query contains starts_with ends_with mn mx ex w := by
  intro w hw
  unfold get_filtered_words at hw
  have h4 := List.take_subset _ _ hw
  obtain ⟨h3, hex, hminmax⟩ := mem_exact_stage h4
  obtain ⟨h2, hends⟩ := mem_of_opt_filter (fun e w => (pyLower e).isSuffixOf w) h3
  obtain ⟨h1, hstarts⟩ := mem_of_opt_filter (fun s w => (pyLower s).isPrefixOf w) h2
  obtain ⟨h0, hcont⟩ := mem_of_opt_filter (fun c w => pyContains w (pyLower c)) h1
  have hloww : pyLower w = w := hlow w h0
  refine ⟨h0, ?_, ?_, ?_, hex, hminmax⟩
  · intro c hc hne
    obtain ⟨pre, post, hdec⟩ := (pyContains_iff w (pyLower c)).mp (hcont c hc hne)
    exact ⟨pre, post, by rw [hloww, ← hdec]⟩
  · intro s hs hne
    obtain ⟨post, hdec⟩ := (isPrefixOf_iff_exists (pyLower s) w).mp (hstarts s hs hne)
    exact ⟨post, by rw [hloww, ← hdec]⟩
  · intro e he hne
    obtain ⟨pre, hdec⟩ := (isSuffixOf_iff_exists (pyLower e) w).mp (hends e he hne)
    exact ⟨pre, by rw [hloww, ← hdec]⟩

/-- The `filter_words_simple` loop collects exactly the first
`limit - acc.length` non-skipped words, appended to the accumulator. -/
theorem fws_loop_eq (c s e : Option (List Char)) (mn mx ex : Option Nat) (limit : Nat) :
    ∀ (l acc : List Word),
      fws_loop c s e mn mx ex limit l acc =
        acc ++ (l.filter fun w => !fws_skip c s e mn mx ex w).take (limit - acc.length) := by
  intro l
  induction l with
  | nil =>
    intro acc
    simp [fws_loop]
  | cons w ws ih =>
    intro acc
    unfold fws_loop
    by_cases hlim : limit ≤ acc.length
    · rw [if_pos hlim]
      have hz : limit - acc.length = 0 := by omega
      simp [hz]
    · rw [if_neg hlim]
      by_cases hskip : fws_skip c s e mn mx ex w = true
      · rw [if_pos hskip, ih, List.filter_cons_of_neg (by simp [hskip])]
      · rw [if_neg hskip, ih, List.filter_cons_of_pos (by simp [Bool.not_eq_true] at hskip; simp [hskip])]
        have hpos : limit - acc.length = (limit - (acc.length + 1)) + 1 := by omega
        rw [List.length_append, List.length_singleton, hpos, List.take_succ_cons,
          List.append_assoc, List.singleton_append]

/-- `filter_words_simple` is a truncated scan of the single combined
predicate. -/
theorem filter_words_simple_eq (wl : List Word)
    (contains starts_with ends_with : Option (List Char))
    (mn mx ex : Option Nat) (limit : Nat) :
    filter_words_simple wl contains starts_with ends_with mn mx ex limit =
      (wl.filter fun w =>
        !fws_skip (normalize_filter contains) (normalize_filter starts_with)
          (normalize_filter ends_with) mn mx ex w).take limit := by
  unfold filter_words_simple
  rw [fws_loop_eq]
  simp

/-- What a word that the `filter_words_simple` loop does not skip
satisfies. -/
theorem fws_skip_false_sound {c s e : Option (List Char)} {mn mx ex : Option Nat} {w : Word}
    (h : fws_skip c s e mn mx ex w = false) :
    (∀ cv, c = some cv → pyContains w cv = true) ∧
    (∀ sv, s = some sv → sv.isPrefixOf w = true) ∧
    (∀ ev, e = some ev → ev.isSuffixOf w = true) ∧
    (∀ n, ex = some n → n ≠ 0 → w.length = n) ∧
    (truthyNat ex = false →
      (∀ n, mn = some n → n ≠ 0 → n ≤ w.length) ∧
      (∀ n, mx = some n → n ≠ 0 → w.length ≤ n)) := by
  unfold fws_skip at h
  simp only [Bool.or_eq_false_iff] at h
  obtain ⟨⟨⟨hc, hs⟩, he⟩, hlen⟩ := h
  refine ⟨?_, ?_, ?_, ?_, ?_⟩
  · rintro cv rfl
    simpa using hc
  · rintro sv rfl
    simpa using hs
  · rintro ev rfl
    simpa using he
  · rintro n rfl hn
    rw [if_pos (by simp [truthyNat, hn])] at hlen
    simpa using hlen
  · intro htr
    rw [if_neg (by simp [htr])] at hlen
    simp only [Bool.or_eq_false_iff] at hlen
    obtain ⟨hmin, hmax⟩ := hlen
    constructor
    · rintro n rfl hn
      simp only [Bool.and_eq_false_iff, bne_eq_false_iff_eq, decide_eq_false_iff_not,
        not_lt] at hmin
      rcases hmin with h1 | h1
      · exact absurd h1 hn
      · exact h1
    · rintro n rfl hn
      simp only [Bool.and_eq_false_iff, bne_eq_false_iff_eq, decide_eq_false_iff_not,
        not_lt] at hmax
      rcases hmax with h1 | h1
      · exact absurd h1 hn
      · exact h1

/-- C4: query composition.  For both query implementations
(`get_filtered_words` of main_s3.py and `filter_words_simple` of
main_optimized.py), over a lowercase collection: at most `limit` words are
returned; every returned word is from the collection and satisfies all
active predicates (substring, prefix, suffix and length bounds, compared
case-insensitively); and when a (truthy) `exact_length` is provided the
result is entirely independent of `min_length`/`max_length`. -/
theorem query_filters_sound (wl : List Word)
    (contains starts_with ends_with : Option (List Char))
    (mn mx ex : Option Nat) (limit : Nat)
    (hlow : ∀ w ∈ wl, pyLower w = w) :
    ((get_filtered_words wl contains starts_with ends_with mn mx ex limit).length ≤ limit ∧
      (filter_words_simple wl contains starts_with ends_with mn mx ex limit).length ≤ limit) ∧
    (∀ w ∈ get_filtered_words wl contains starts_with ends_with mn mx ex limit,
        w ∈ wl ∧ satisfies_query contains starts_with ends_with mn mx ex w) ∧
    (∀ w ∈ filter_words_simple wl contains starts_with ends_with mn mx ex limit,
        w ∈ wl ∧ satisfies_query contains starts_with ends_with mn mx ex w) ∧
    (∀ n, ex = some n → n ≠ 0 →
        get_filtered_words wl contains starts_with ends_with mn mx ex limit =
          get_filtered_words wl contains starts_with ends_with none none ex limit ∧
        filter_words_simple wl contains starts_with ends_with mn mx ex limit =
          filter_words_simple wl contains starts_with ends_with none none ex limit) := by
  refine ⟨⟨?_, ?_⟩, get_filtered_words_sound wl contains starts_with ends_with mn mx ex limit hlow, ?_, ?_⟩
  · unfold get_filtered_words
    exact List.length_take_le _ _
  · rw [filter_words_simple_eq]
    exact List.length_take_le _ _
  · intro w hw
    rw [filter_words_simple_eq] at hw
    have hmem0 := List.take_subset _ _ hw
    obtain ⟨h0, hskip⟩ := List.mem_filter.mp hmem0
    have hsf : fws_skip (normalize_filter contains) (normalize_filter starts_with)
        (normalize_filter ends_with) mn mx ex w = false := by
      simpa using hskip
    obtain ⟨hc, hs, he, hex, hmm⟩ := fws_skip_false_sound hsf
    have hloww : pyLower w = w := hlow w h0
    refine ⟨h0, ?_, ?_, ?_, hex, hmm⟩
    · intro cv hcv hne
      have hn : normalize_filter contains = some (pyLower cv) := by
        rw [hcv]
        simp [normalize_filter, List.isEmpty_iff, hne]
      obtain ⟨pre, post, hdec⟩ := (pyContains_iff w (pyLower cv)).mp (hc _ hn)
      exact ⟨pre, post, by rw [hloww, ← hdec]⟩
    · intro sv hsv hne
      have hn : normalize_filter starts_with = some (pyLower sv) := by
        rw [hsv]
        simp [normalize_filter, List.isEmpty_iff, hne]
      obtain ⟨post, hdec⟩ := (isPrefixOf_iff_exists (pyLower sv) w).mp (hs _ hn)
      exact ⟨post, by rw [hloww, ← hdec]⟩
    · intro ev hev hne
      have hn : normalize_filter ends_with = some (pyLower ev) := by
        rw [hev]
        simp [normalize_filter, List.isEmpty_iff, hne]
      obtain ⟨pre, hdec⟩ := (isSuffixOf_iff_exists (pyLower ev) w).mp (he _ hn)
      exact ⟨pre, by rw [hloww, ← hdec]⟩
  · rintro n rfl hn
    constructor
    · simp only [get_filtered_words]
      rw [if_pos hn, if_pos hn]
    · rw [filter_words_simple_eq, filter_words_simple_eq]
      congr 1
      apply List.filter_congr
      intro w _
      simp [fws_skip, truthyNat, hn]

/-- Witness for C4 at concrete inputs: uppercase filter `"A"` against a
lowercase collection, with `exact_length = 2` overriding `min_length = 3`. -/
theorem query_filters_sound_witness :
    (get_filtered_words [['a', 'b'], ['b', 'a', 'b']] (some ['A']) none none
        (some 3) none (some 2) 10).length ≤ 10 ∧
    get_filtered_words [['a', 'b'], ['b', 'a', 'b']] (some ['A']) none none
        (some 3) none (some 2) 10 =
      get_filtered_words [['a', 'b'], ['b', 'a', 'b']] (some ['A']) none none
        none none (some 2) 10 :=
  ⟨(query_filters_sound [['a', 'b'], ['b', 'a', 'b']] (some ['A']) none none
      (some 3) none (some 2) 10 (by decide)).1.1,
   ((query_filters_sound [['a', 'b'], ['b', 'a', 'b']] (some ['A']) none none
      (some 3) none (some 2) 10 (by decide)).2.2.2 2 rfl (by decide)).1⟩
